import Mathlib

/-!
Verification of the contact-manager core (src/contact_manager.py).

Strings are embedded as lists of characters (`Str`).  Python operations used
by the source are modelled directly:
  * `str.strip()`            -> `pyStrip` (Python default whitespace set)
  * `" | " in line`          -> `containsSub sepStr line`
  * `line.split(" | ", 1)`   -> `splitFirst sepStr line` (split at first
    occurrence; `none` when the separator does not occur, in which case the
    Python two-variable unpacking raises an uncaught ValueError)
  * `str.lower()`            -> `lowerStr` (ASCII case folding)

The backing store file is modelled as `Option (List Str)`: `none` when the
file does not exist, otherwise the list of its lines (each line carrying its
trailing newline, as Python file iteration yields them).  Raised exceptions
are modelled with `Except`; an operation that raises leaves the file state
unchanged, because in the source every raise happens before any `open` for
writing.
-/

namespace ContactMgr

abbrev Str := List Char

/-- The characters removed by Python's default `str.strip()`. -/
def isSpaceChar (c : Char) : Bool :=
  c = ' ' || c = '\t' || c = '\n' || c = '\r' || c = '\x0b' || c = '\x0c'

/-- Python `s.lstrip()`: drop leading whitespace. -/
def lstrip (s : Str) : Str := s.dropWhile isSpaceChar

/-- Python `s.rstrip()`: drop trailing whitespace. -/
def rstrip (s : Str) : Str := (s.reverse.dropWhile isSpaceChar).reverse

/-- Python `s.strip()`: drop whitespace from both ends. -/
def pyStrip (s : Str) : Str := lstrip (rstrip s)

/-- The record separator `" | "` of the on-disk format. -/
def sepStr : Str := [' ', '|', ' ']

/-- Split a list at the first occurrence of `sep`, returning the parts
before and after it; `none` when `sep` does not occur.  This is the model of
Python `s.split(sep, 1)` (the `some` case corresponds to a 2-element result,
the `none` case to a 1-element result). -/
def splitFirst (sep : Str) : Str → Option (Str × Str)
  | [] => none
  | c :: cs =>
    if sep.isPrefixOf (c :: cs) then some ([], (c :: cs).drop sep.length)
    else
      match splitFirst sep cs with
      | some (a, b) => some (c :: a, b)
      | none => none

/-- Python `sep in s` (substring test). -/
def containsSub (sep s : Str) : Bool := (splitFirst sep s).isSome

/-- The allowed phone characters of `Contact._validate`:
`allowed = set("0123456789-+ ()")`. -/
def allowedPhoneChars : Str := "0123456789-+ ()".toList

/-- The three `ValueError` kinds raised by `Contact._validate`. -/
inductive VErr
  | emptyName
  | emptyPhone
  | invalidPhone
deriving DecidableEq, Repr

/-- One contact record, as held by the Python `Contact` class after
construction (both fields already stripped). -/
structure Contact where
  name : Str
  phone : Str
deriving DecidableEq, Repr

/-- `Contact.__init__` together with `Contact._validate`: strip both inputs,
fail on an empty name, an empty phone, or a phone character outside the
allowed set, in that order. -/
def construct (name phone : Str) : Except VErr Contact :=
  if pyStrip name = [] then .error .emptyName
  else if pyStrip phone = [] then .error .emptyPhone
  else if (pyStrip phone).any (fun ch => !(allowedPhoneChars.contains ch)) then
    .error .invalidPhone
  else .ok ⟨pyStrip name, pyStrip phone⟩

/-- `Contact.to_line`: serialize to `"<name> | <phone>\n"`. -/
def to_line (c : Contact) : Str := c.name ++ (sepStr ++ (c.phone ++ ['\n']))

/-- `Contact.from_line`.  Note the faithful modelling of the source's
control flow: the membership test `" | " in line` runs on the raw line, the
split runs on the stripped line, and only the `Contact` construction sits
inside the `try`.  When the separator occurs in the raw line but not in the
stripped line, the two-variable unpacking of a one-element split result
raises a `ValueError` that is not caught: this is the `.error ()` case. -/
def from_line (line : Str) : Except Unit (Option Contact) :=
  if containsSub sepStr line then
    match splitFirst sepStr (pyStrip line) with
    | none => .error ()
    | some (n, p) =>
      match construct n p with
      | .ok c => .ok (some c)
      | .error _ => .ok none
  else .ok none

/-- The loop body of `ContactManager.get_all_contacts`: parse each line in
order, keep the parsed contacts, and propagate an uncaught exception. -/
def readContacts : List Str → Except Unit (List Contact)
  | [] => .ok []
  | l :: ls =>
    match from_line l with
    | .error e => .error e
    | .ok none => readContacts ls
    | .ok (some c) =>
      match readContacts ls with
      | .error e => .error e
      | .ok cs => .ok (c :: cs)

/-- `ContactManager.get_all_contacts`: an absent file reads as the empty
list (guarded by `os.path.exists`); otherwise every line is parsed. -/
def get_all_contacts (file : Option (List Str)) : Except Unit (List Contact) :=
  match file with
  | none => .ok []
  | some lines => readContacts lines

/-- `get_all_contacts` viewed as a state transformer on the file.  The
source opens the path only when it exists and only in mode `"r"`, so the
file state is returned unchanged in every branch; in particular reading
never creates the file. -/
def listContacts_fs (file : Option (List Str)) :
    Except Unit (List Contact) × Option (List Str) :=
  match file with
  | none => (Except.ok [], none)
  | some lines => (readContacts lines, some lines)

/-- ASCII case folding of one character, as Python `str.lower()` acts on the
ASCII range. -/
def lowerChar (c : Char) : Char :=
  if 'A' ≤ c ∧ c ≤ 'Z' then Char.ofNat (c.toNat + 32) else c

/-- Python `s.lower()`. -/
def lowerStr (s : Str) : Str := s.map lowerChar

/-- The two ways `ContactManager.add_contact` can raise: an uncaught parse
exception from `get_all_contacts`, or the duplicate-name `ValueError`. -/
inductive AddErr
  | readAbort
  | duplicate
deriving DecidableEq, Repr

/-- `ContactManager.add_contact`: read everything, raise on a
case-insensitive name match, otherwise append the serialized line (mode
`"a"` creates the file when it is absent). -/
def add_contact (file : Option (List Str)) (c : Contact) :
    Except AddErr (Option (List Str)) :=
  match get_all_contacts file with
  | .error _ => .error .readAbort
  | .ok cs =>
    if cs.any (fun e => lowerStr e.name == lowerStr c.name) then .error .duplicate
    else .ok (some (file.getD [] ++ [to_line c]))

/-- `ContactManager.delete_contact`: read everything, keep the records whose
lowercased name differs from the lowercased argument; when nothing was
dropped return `false` without touching the file, otherwise rewrite the file
with exactly the serialized survivors and return `true`. -/
def delete_contact (file : Option (List Str)) (name : Str) :
    Except Unit (Bool × Option (List Str)) :=
  match get_all_contacts file with
  | .error e => .error e
  | .ok cs =>
    let updated := cs.filter (fun c => !(lowerStr c.name == lowerStr name))
    if updated.length = cs.length then .ok (false, file)
    else .ok (true, some (updated.map to_line))

/-- `os.path.dirname` for relative slash-separated paths: everything before
the last slash, empty when there is none. -/
def dirname (p : Str) : Str := ((p.reverse.dropWhile (fun c => !(c == '/'))).drop 1).reverse

/-- Filesystem state seen by `ContactManager.__init__`: the backing file
(`none` when absent) and the set of directories known to exist. -/
structure FS where
  file : Option (List Str)
  dirs : List Str
deriving DecidableEq

/-- `ContactManager.__init__`: when the path has a directory component run
`os.makedirs(folder, exist_ok=True)`; the backing file itself is never
opened or created here. -/
def initManager (path : Str) (fs : FS) : FS :=
  if dirname path = [] then fs else { fs with dirs := dirname path :: fs.dirs }

/-- The store mutations whose sequences claim C8 quantifies over. -/
inductive Op
  | addOp (c : Contact)
  | delOp (name : Str)

/-- The file state after one operation.  A raised exception leaves the file
unchanged: in the source both raises happen before any write-mode `open`. -/
def runOp (file : Option (List Str)) : Op → Option (List Str)
  | .addOp c =>
    match add_contact file c with
    | .ok f => f
    | .error _ => file
  | .delOp n =>
    match delete_contact file n with
    | .ok r => r.2
    | .error _ => file

/-- The invariant every Python-constructed `Contact` satisfies: both fields
nonempty, both fields fixed by stripping, and the phone made of allowed
characters only. -/
def WFContact (c : Contact) : Prop :=
  c.name ≠ [] ∧ pyStrip c.name = c.name ∧ c.phone ≠ [] ∧ pyStrip c.phone = c.phone ∧
    c.phone.all (fun ch => allowedPhoneChars.contains ch) = true

instance instDecidableWFContact (c : Contact) : Decidable (WFContact c) := by
  unfold WFContact
  infer_instance

/-- Boolean form of `WFContact`, for concrete checking. -/
def wfContactB (c : Contact) : Bool := decide (WFContact c)

/-- Bool-valued well-formedness of an operation: contacts passed to add must
come from the Python constructor. -/
def opWFB : Op → Bool
  | .addOp c => wfContactB c
  | .delOp _ => true

/-- Does the serialized form of `c` parse back to `c`? -/
def survives (c : Contact) : Bool :=
  match from_line (to_line c) with
  | .ok (some c') => c' == c
  | _ => false

/-- A name ends with the two characters `" |"`. -/
def endsWithPipe (s : Str) : Bool := [' ', '|'].isSuffixOf s

/-- No two records share a lowercased name. -/
def distinctNames (cs : List Contact) : Prop :=
  cs.Pairwise (fun a b => lowerStr a.name ≠ lowerStr b.name)

/-- The store invariant of claim C8: reading succeeds, the parsed records
have pairwise distinct lowercased names, and every parsed record is
well-formed. -/
def GoodInv (file : Option (List Str)) : Prop :=
  ∃ cs, get_all_contacts file = .ok cs ∧ distinctNames cs ∧ ∀ c ∈ cs, WFContact c

/-- Sample store line "Alice | 1\n" used in concrete checks. -/
def aliceLine : Str := "Alice | 1\n".toList

/-- Sample store line "Bob | 2\n" used in concrete checks. -/
def bobLine : Str := "Bob | 2\n".toList

/-- The contact parsed from `aliceLine`. -/
def aliceContact : Contact := ⟨"Alice".toList, "1".toList⟩

/-- The contact parsed from `bobLine`. -/
def bobContact : Contact := ⟨"Bob".toList, "2".toList⟩

/-! ### Facts about Python stripping -/

/-- A list whose head, if any, is not whitespace. -/
def noLeadWS (s : Str) : Prop := ∀ a as, s = a :: as → isSpaceChar a = false

theorem noLeadWS_dropWhile (l : Str) : noLeadWS (l.dropWhile isSpaceChar) := by
  induction l with
  | nil => intro a as h; simp [List.dropWhile] at h
  | cons c cs ih =>
    intro a as h
    by_cases hc : isSpaceChar c
    · rw [List.dropWhile_cons, if_pos hc] at h
      exact ih a as h
    · rw [List.dropWhile_cons, if_neg hc] at h
      injection h with h1 h2
      subst h1
      simpa using hc

theorem exists_append_dropWhile (p : Char → Bool) (l : Str) :
    ∃ t, t ++ l.dropWhile p = l := by
  induction l with
  | nil => exact ⟨[], rfl⟩
  | cons c cs ih =>
    by_cases hc : p c
    · obtain ⟨t, ht⟩ := ih
      refine ⟨c :: t, ?_⟩
      rw [List.dropWhile_cons, if_pos hc, List.cons_append, ht]
    · exact ⟨[], by rw [List.dropWhile_cons, if_neg hc]; rfl⟩

theorem mem_dropWhile_of_not (p : Char → Bool) (l : Str) (x : Char)
    (hx : x ∈ l) (hpx : p x = false) : x ∈ l.dropWhile p := by
  induction l with
  | nil => cases hx
  | cons c cs ih =>
    by_cases hc : p c
    · rw [List.dropWhile_cons, if_pos hc]
      rcases List.mem_cons.mp hx with h | h
      · subst h; rw [hc] at hpx; cases hpx
      · exact ih h
    · rw [List.dropWhile_cons, if_neg hc]; exact hx

theorem lstrip_eq_self (s : Str) (h : noLeadWS s) : lstrip s = s := by
  cases s with
  | nil => rfl
  | cons a as =>
    show (a :: as).dropWhile isSpaceChar = a :: as
    rw [List.dropWhile_cons, if_neg]
    simp [h a as rfl]

theorem rstrip_reverse_eq (s : Str) :
    (rstrip s).reverse = s.reverse.dropWhile isSpaceChar := by
  simp [rstrip]

theorem rstrip_eq_self (s : Str) (h : noLeadWS s.reverse) : rstrip s = s := by
  have h1 : s.reverse.dropWhile isSpaceChar = s.reverse := lstrip_eq_self s.reverse h
  show (s.reverse.dropWhile isSpaceChar).reverse = s
  rw [h1, List.reverse_reverse]

theorem noLeadWS_pyStrip (s : Str) : noLeadWS (pyStrip s) :=
  noLeadWS_dropWhile (rstrip s)

theorem noLeadWS_pyStrip_reverse (s : Str) : noLeadWS ((pyStrip s).reverse) := by
  intro a as h
  obtain ⟨u, hu⟩ := exists_append_dropWhile isSpaceChar (rstrip s)
  have ht : noLeadWS ((rstrip s).reverse) := by
    rw [rstrip_reverse_eq]
    exact noLeadWS_dropWhile _
  have hps : pyStrip s = (rstrip s).dropWhile isSpaceChar := rfl
  rw [← hps] at hu
  have h2 : (rstrip s).reverse = (pyStrip s).reverse ++ u.reverse := by
    rw [← hu, List.reverse_append]
  rw [h, List.cons_append] at h2
  exact ht a _ h2

theorem pyStrip_idem (s : Str) : pyStrip (pyStrip s) = pyStrip s := by
  have h1 := noLeadWS_pyStrip s
  have h2 := noLeadWS_pyStrip_reverse s
  show lstrip (rstrip (pyStrip s)) = pyStrip s
  rw [rstrip_eq_self _ h2, lstrip_eq_self _ h1]

theorem noLeadWS_of_strip_fix (s : Str) (h : pyStrip s = s) : noLeadWS s :=
  h ▸ noLeadWS_pyStrip s

theorem noLeadWS_reverse_of_strip_fix (s : Str) (h : pyStrip s = s) :
    noLeadWS s.reverse := h ▸ noLeadWS_pyStrip_reverse s

theorem noLeadWS_append (s t : Str) (hs : s ≠ []) (h : noLeadWS s) :
    noLeadWS (s ++ t) := by
  cases s with
  | nil => cases hs rfl
  | cons a as =>
    intro b bs hb
    rw [List.cons_append] at hb
    injection hb with h1 h2
    subst h1
    exact h a as rfl

theorem mem_pyStrip (s : Str) (x : Char) (hx : x ∈ s)
    (hns : isSpaceChar x = false) : x ∈ pyStrip s := by
  have h1 : x ∈ rstrip s := by
    have h2 : x ∈ s.reverse.dropWhile isSpaceChar :=
      mem_dropWhile_of_not _ _ _ (List.mem_reverse.mpr hx) hns
    have h3 : x ∈ (s.reverse.dropWhile isSpaceChar).reverse := List.mem_reverse.mpr h2
    exact h3
  exact mem_dropWhile_of_not _ _ _ h1 hns

theorem rstrip_append_ws (x : Str) (d : Char) (hd : isSpaceChar d = true) :
    rstrip (x ++ [d]) = rstrip x := by
  show ((x ++ [d]).reverse.dropWhile isSpaceChar).reverse = _
  rw [List.reverse_append]
  show ((d :: x.reverse).dropWhile isSpaceChar).reverse = _
  rw [List.dropWhile_cons, if_pos hd]
  rfl

theorem pyStrip_to_line (c : Contact) (h : WFContact c) :
    pyStrip (to_line c) = c.name ++ (sepStr ++ c.phone) := by
  obtain ⟨hn, hns, hp, hps, -⟩ := h
  have hx : to_line c = (c.name ++ (sepStr ++ c.phone)) ++ ['\n'] := by
    simp [to_line, List.append_assoc]
  rw [hx]
  show lstrip (rstrip _) = _
  rw [rstrip_append_ws _ '\n' (by decide)]
  have hpr : c.phone.reverse ≠ [] := by simpa using hp
  have hrev : noLeadWS ((c.name ++ (sepStr ++ c.phone)).reverse) := by
    have h1 : noLeadWS c.phone.reverse := noLeadWS_reverse_of_strip_fix _ hps
    have h2 : (c.name ++ (sepStr ++ c.phone)).reverse
        = c.phone.reverse ++ (sepStr.reverse ++ c.name.reverse) := by
      simp [List.reverse_append]
    rw [h2]
    exact noLeadWS_append _ _ hpr h1
  rw [rstrip_eq_self _ hrev]
  exact lstrip_eq_self _ (noLeadWS_append _ _ hn (noLeadWS_of_strip_fix _ hns))

/-! ### Facts about splitting on the first separator occurrence -/

theorem splitFirst_cons_eq (sep : Str) (c : Char) (cs : Str) :
    splitFirst sep (c :: cs)
      = if sep.isPrefixOf (c :: cs) then some ([], (c :: cs).drop sep.length)
        else
          match splitFirst sep cs with
          | some (a, b) => some (c :: a, b)
          | none => none := rfl

theorem splitFirst_of_isPrefixOf (sep s : Str) (hs : s ≠ [])
    (h : sep.isPrefixOf s = true) :
    splitFirst sep s = some ([], s.drop sep.length) := by
  cases s with
  | nil => cases hs rfl
  | cons c cs => rw [splitFirst_cons_eq, if_pos h]

theorem splitFirst_append_isSome (x y : Str) :
    (splitFirst sepStr (x ++ (sepStr ++ y))).isSome = true := by
  induction x with
  | nil =>
    rw [List.nil_append,
      splitFirst_of_isPrefixOf sepStr _ (by simp [sepStr])
        (List.isPrefixOf_iff_prefix.mpr (List.prefix_append _ _))]
    rfl
  | cons c cs ih =>
    rw [List.cons_append, splitFirst_cons_eq]
    by_cases h : sepStr.isPrefixOf (c :: (cs ++ (sepStr ++ y)))
    · rw [if_pos h]; rfl
    · rw [if_neg h]
      obtain ⟨⟨a, b⟩, hab⟩ := Option.isSome_iff_exists.mp ih
      rw [hab]
      rfl

theorem containsSub_cons_of (sep : Str) (c : Char) (l : Str)
    (h : containsSub sep l = true) : containsSub sep (c :: l) = true := by
  unfold containsSub at h ⊢
  obtain ⟨⟨a, b⟩, hab⟩ := Option.isSome_iff_exists.mp h
  rw [splitFirst_cons_eq]
  by_cases hp : sep.isPrefixOf (c :: l)
  · rw [if_pos hp]; rfl
  · rw [if_neg hp, hab]; rfl

theorem containsSub_cons_false (sep : Str) (c : Char) (l : Str)
    (h : containsSub sep (c :: l) = false) : containsSub sep l = false := by
  cases hb : containsSub sep l
  · rfl
  · rw [containsSub_cons_of sep c l hb] at h
    cases h

theorem endsWithPipe_cons_false (a : Char) (l : Str)
    (h : endsWithPipe (a :: l) = false) : endsWithPipe l = false := by
  cases hb : endsWithPipe l
  · rfl
  · exfalso
    have h1 : [' ', '|'] <:+ l := List.isSuffixOf_iff_suffix.mp hb
    have h2 : [' ', '|'] <:+ a :: l := h1.trans (List.suffix_cons a l)
    have h3 : endsWithPipe (a :: l) = true := List.isSuffixOf_iff_suffix.mpr h2
    rw [h3] at h
    cases h

theorem splitFirst_eq_append (sep : Str) : ∀ (s a b : Str),
    splitFirst sep s = some (a, b) → s = a ++ (sep ++ b) := by
  intro s
  induction s with
  | nil => intro a b h; simp [splitFirst] at h
  | cons c cs ih =>
    intro a b h
    rw [splitFirst_cons_eq] at h
    by_cases hp : sep.isPrefixOf (c :: cs)
    · rw [if_pos hp] at h
      obtain ⟨t, ht⟩ := List.isPrefixOf_iff_prefix.mp hp
      injection h with h1
      have ha : a = [] := (congrArg Prod.fst h1).symm
      have hb : b = (c :: cs).drop sep.length := (congrArg Prod.snd h1).symm
      subst ha
      rw [List.nil_append, ← ht, hb, ← ht, List.drop_left]
    · rw [if_neg hp] at h
      cases hm : splitFirst sep cs with
      | none => rw [hm] at h; cases h
      | some p =>
        obtain ⟨a', b'⟩ := p
        rw [hm] at h
        injection h with h1
        have ha : a = c :: a' := (congrArg Prod.fst h1).symm
        have hb : b = b' := (congrArg Prod.snd h1).symm
        subst ha
        subst hb
        rw [List.cons_append, ← ih a' b hm]

theorem splitFirst_canonical (n : Str) (p : Str) (h1 : containsSub sepStr n = false)
    (h2 : endsWithPipe n = false) :
    splitFirst sepStr (n ++ (sepStr ++ p)) = some (n, p) := by
  induction n with
  | nil =>
    rw [List.nil_append,
      splitFirst_of_isPrefixOf sepStr _ (by simp [sepStr])
        (List.isPrefixOf_iff_prefix.mpr (List.prefix_append _ _)),
      List.drop_left]
  | cons a n' ih =>
    rw [List.cons_append, splitFirst_cons_eq]
    by_cases hp : sepStr.isPrefixOf (a :: (n' ++ (sepStr ++ p)))
    · exfalso
      obtain ⟨t, ht⟩ := List.isPrefixOf_iff_prefix.mp hp
      rw [show sepStr ++ t = ' ' :: '|' :: ' ' :: t from rfl] at ht
      injection ht with ha ht1
      cases n' with
      | nil =>
        rw [List.nil_append, show sepStr ++ p = ' ' :: '|' :: ' ' :: p from rfl] at ht1
        injection ht1 with hb
        cases hb
      | cons b n'' =>
        rw [List.cons_append] at ht1
        injection ht1 with hb ht2
        cases n'' with
        | nil =>
          subst ha
          subst hb
          exact absurd h2 (by decide)
        | cons d n''' =>
          rw [List.cons_append] at ht2
          injection ht2 with hd ht3
          subst ha
          subst hb
          subst hd
          have hcon : containsSub sepStr (' ' :: '|' :: ' ' :: n''') = true := by
            show (splitFirst sepStr (sepStr ++ n''')).isSome = true
            rw [splitFirst_of_isPrefixOf sepStr _ (by exact List.cons_ne_nil _ _)
              (List.isPrefixOf_iff_prefix.mpr (List.prefix_append _ _))]
            rfl
          rw [hcon] at h1
          cases h1
    · rw [if_neg hp, ih (containsSub_cons_false _ _ _ h1) (endsWithPipe_cons_false _ _ h2)]

theorem splitFirst_min : ∀ (u s a b v : Str),
    splitFirst sepStr s = some (a, b) → s = u ++ (sepStr ++ v) →
    a.length ≤ u.length := by
  intro u
  induction u with
  | nil =>
    intro s a b v h hs
    subst hs
    rw [List.nil_append,
      splitFirst_of_isPrefixOf sepStr _ (by simp [sepStr])
        (List.isPrefixOf_iff_prefix.mpr (List.prefix_append _ _))] at h
    injection h with h1
    have ha : a = [] := (congrArg Prod.fst h1).symm
    simp [ha]
  | cons c u' ih =>
    intro s a b v h hs
    subst hs
    rw [List.cons_append, splitFirst_cons_eq] at h
    by_cases hp : sepStr.isPrefixOf (c :: (u' ++ (sepStr ++ v)))
    · rw [if_pos hp] at h
      injection h with h1
      have ha : a = [] := (congrArg Prod.fst h1).symm
      simp [ha]
    · rw [if_neg hp] at h
      cases hm : splitFirst sepStr (u' ++ (sepStr ++ v)) with
      | none => rw [hm] at h; cases h
      | some q =>
        obtain ⟨a', b'⟩ := q
        rw [hm] at h
        injection h with h1
        have ha : a = c :: a' := (congrArg Prod.fst h1).symm
        subst ha
        have := ih _ a' b' v hm rfl
        simpa using Nat.succ_le_succ this

theorem splitFirst_boundary : ∀ (n p n₁ p₁ : Str),
    splitFirst sepStr (n ++ (sepStr ++ p)) = some (n₁, p₁) →
    (n₁ = n ∧ p₁ = p) ∨ '|' ∈ p₁ := by
  intro n
  induction n with
  | nil =>
    intro p n₁ p₁ h
    rw [List.nil_append,
      splitFirst_of_isPrefixOf sepStr _ (by simp [sepStr])
        (List.isPrefixOf_iff_prefix.mpr (List.prefix_append _ _)),
      List.drop_left] at h
    injection h with h1
    exact Or.inl ⟨(congrArg Prod.fst h1).symm, (congrArg Prod.snd h1).symm⟩
  | cons a n' ih =>
    intro p n₁ p₁ h
    rw [List.cons_append, splitFirst_cons_eq] at h
    by_cases hp : sepStr.isPrefixOf (a :: (n' ++ (sepStr ++ p)))
    · rw [if_pos hp] at h
      obtain ⟨t, ht⟩ := List.isPrefixOf_iff_prefix.mp hp
      injection h with h1
      have hp₁ : p₁ = (a :: (n' ++ (sepStr ++ p))).drop sepStr.length :=
        (congrArg Prod.snd h1).symm
      rw [← ht, List.drop_left] at hp₁
      right
      rw [show sepStr ++ t = ' ' :: '|' :: ' ' :: t from rfl] at ht
      injection ht with ha ht1
      cases n' with
      | nil =>
        rw [List.nil_append, show sepStr ++ p = ' ' :: '|' :: ' ' :: p from rfl] at ht1
        injection ht1 with hb
        cases hb
      | cons b n'' =>
        rw [List.cons_append] at ht1
        injection ht1 with hb ht2
        cases n'' with
        | nil =>
          rw [List.nil_append, show sepStr ++ p = ' ' :: '|' :: ' ' :: p from rfl] at ht2
          injection ht2 with hsp ht3
          rw [hp₁, ht3]
          exact List.mem_cons_self '|' _
        | cons d n''' =>
          rw [List.cons_append] at ht2
          injection ht2 with hd ht3
          rw [hp₁, ht3]
          have hmem : '|' ∈ sepStr := by decide
          exact List.mem_append_right n''' (List.mem_append_left p hmem)
    · rw [if_neg hp] at h
      cases hm : splitFirst sepStr (n' ++ (sepStr ++ p)) with
      | none => rw [hm] at h; cases h
      | some q =>
        obtain ⟨a', b'⟩ := q
        rw [hm] at h
        injection h with h1
        have ha : n₁ = a :: a' := (congrArg Prod.fst h1).symm
        have hb : p₁ = b' := (congrArg Prod.snd h1).symm
        subst ha
        subst hb
        rcases ih p a' p₁ hm with ⟨hL, hR⟩ | hmem
        · subst hL
          subst hR
          exact Or.inl ⟨rfl, rfl⟩
        · exact Or.inr hmem

/-! ### Facts about construction and the serialization round trip -/

theorem construct_ok (n p : Str) (c : Contact) (h : construct n p = .ok c) :
    c.name = pyStrip n ∧ c.phone = pyStrip p ∧ pyStrip n ≠ [] ∧ pyStrip p ≠ [] ∧
      (pyStrip p).all (fun ch => allowedPhoneChars.contains ch) = true := by
  unfold construct at h
  by_cases h1 : pyStrip n = []
  · rw [if_pos h1] at h; cases h
  · rw [if_neg h1] at h
    by_cases h2 : pyStrip p = []
    · rw [if_pos h2] at h; cases h
    · rw [if_neg h2] at h
      by_cases h3 : (pyStrip p).any (fun ch => !(allowedPhoneChars.contains ch)) = true
      · rw [if_pos h3] at h; cases h
      · rw [if_neg h3] at h
        injection h with h4
        have hall : (pyStrip p).all (fun ch => allowedPhoneChars.contains ch) = true := by
          rw [List.all_eq_true]
          intro x hx
          by_contra hc
          exact h3 (List.any_eq_true.mpr ⟨x, hx, by simp at hc ⊢; exact hc⟩)
        exact ⟨by rw [← h4], by rw [← h4], h1, h2, hall⟩

theorem construct_WF (n p : Str) (c : Contact) (h : construct n p = .ok c) :
    WFContact c := by
  obtain ⟨hn, hp, hn1, hp1, hall⟩ := construct_ok n p c h
  refine ⟨by rw [hn]; exact hn1, by rw [hn]; exact pyStrip_idem n,
    by rw [hp]; exact hp1, by rw [hp]; exact pyStrip_idem p, by rw [hp]; exact hall⟩

theorem construct_of_WF (c : Contact) (h : WFContact c) :
    construct c.name c.phone = .ok c := by
  obtain ⟨hn, hns, hp, hps, hall⟩ := h
  unfold construct
  rw [hns, hps, if_neg hn, if_neg hp]
  have hany : c.phone.any (fun ch => !(allowedPhoneChars.contains ch)) = false := by
    rw [List.any_eq_false]
    intro x hx
    simpa using List.all_eq_true.mp hall x hx
  rw [hany]
  rfl

theorem construct_error_pipe (n p : Str) (hmem : '|' ∈ p) :
    ∃ e, construct n p = .error e := by
  unfold construct
  by_cases h1 : pyStrip n = []
  · exact ⟨.emptyName, by rw [if_pos h1]⟩
  · rw [if_neg h1]
    have hmem2 : '|' ∈ pyStrip p := mem_pyStrip p '|' hmem (by decide)
    by_cases h2 : pyStrip p = []
    · rw [h2] at hmem2; cases hmem2
    · rw [if_neg h2]
      have h3 : (pyStrip p).any (fun ch => !(allowedPhoneChars.contains ch)) = true :=
        List.any_eq_true.mpr ⟨'|', hmem2, by decide⟩
      exact ⟨.invalidPhone, by rw [if_pos h3]⟩

theorem containsSub_to_line (c : Contact) :
    containsSub sepStr (to_line c) = true :=
  splitFirst_append_isSome c.name (c.phone ++ ['\n'])

theorem from_line_step (line n p : Str)
    (h1 : containsSub sepStr line = true)
    (h2 : splitFirst sepStr (pyStrip line) = some (n, p)) :
    from_line line
      = match construct n p with
        | .ok c => .ok (some c)
        | .error _ => .ok none := by
  unfold from_line
  rw [h1, if_pos rfl, h2]

theorem from_line_to_line_exact (c : Contact) (h : WFContact c)
    (h1 : containsSub sepStr c.name = false) (h2 : endsWithPipe c.name = false) :
    from_line (to_line c) = .ok (some c) := by
  have hsf : splitFirst sepStr (pyStrip (to_line c)) = some (c.name, c.phone) := by
    rw [pyStrip_to_line c h]
    exact splitFirst_canonical c.name c.phone h1 h2
  rw [from_line_step (to_line c) c.name c.phone (containsSub_to_line c) hsf,
    construct_of_WF c h]

theorem from_line_to_line_cases (c : Contact) (h : WFContact c) :
    from_line (to_line c) = .ok (some c) ∨ from_line (to_line c) = .ok none := by
  obtain ⟨⟨n₁, p₁⟩, hsf⟩ :=
    Option.isSome_iff_exists.mp (splitFirst_append_isSome c.name c.phone)
  have hsf' : splitFirst sepStr (pyStrip (to_line c)) = some (n₁, p₁) := by
    rw [pyStrip_to_line c h]
    exact hsf
  have hstep := from_line_step (to_line c) n₁ p₁ (containsSub_to_line c) hsf'
  rcases splitFirst_boundary c.name c.phone n₁ p₁ hsf with ⟨hL, hR⟩ | hmem
  · subst hL
    subst hR
    left
    rw [hstep, construct_of_WF c h]
  · right
    obtain ⟨e, he⟩ := construct_error_pipe n₁ p₁ hmem
    rw [hstep, he]

theorem from_line_to_line_none (c : Contact) (h : WFContact c)
    (hbad : containsSub sepStr c.name = true ∨ endsWithPipe c.name = true) :
    from_line (to_line c) = .ok none := by
  obtain ⟨⟨n₁, p₁⟩, hsf⟩ :=
    Option.isSome_iff_exists.mp (splitFirst_append_isSome c.name c.phone)
  have hsf' : splitFirst sepStr (pyStrip (to_line c)) = some (n₁, p₁) := by
    rw [pyStrip_to_line c h]
    exact hsf
  have hstep := from_line_step (to_line c) n₁ p₁ (containsSub_to_line c) hsf'
  have hne : n₁ ≠ c.name := by
    rcases hbad with hb | hb
    · obtain ⟨⟨u, v⟩, hu⟩ := Option.isSome_iff_exists.mp hb
      have hdecomp := splitFirst_eq_append sepStr c.name u v hu
      have hwhole : c.name ++ (sepStr ++ c.phone)
          = u ++ (sepStr ++ (v ++ (sepStr ++ c.phone))) := by
        rw [hdecomp]
        simp [List.append_assoc]
      have hlen := splitFirst_min u _ n₁ p₁ _ hsf hwhole
      intro heq
      have hlen2 : c.name.length = u.length + (sepStr.length + v.length) := by
        rw [hdecomp]
        simp [List.length_append]
      rw [heq] at hlen
      have hsep : sepStr.length = 3 := rfl
      omega
    · obtain ⟨m, hm⟩ := List.isSuffixOf_iff_suffix.mp hb
      have hwhole : c.name ++ (sepStr ++ c.phone)
          = m ++ (sepStr ++ ('|' :: ' ' :: c.phone)) := by
        rw [← hm]
        simp [sepStr, List.append_assoc]
      have hlen := splitFirst_min m _ n₁ p₁ _ hsf hwhole
      intro heq
      have hlen2 : c.name.length = m.length + 2 := by
        rw [← hm]
        simp [List.length_append]
      rw [heq] at hlen
      omega
  rcases splitFirst_boundary c.name c.phone n₁ p₁ hsf with ⟨hL, hR⟩ | hmem
  · exact absurd hL hne
  · obtain ⟨e, he⟩ := construct_error_pipe n₁ p₁ hmem
    rw [hstep, he]

theorem survives_eq (c : Contact) (h : WFContact c) :
    survives c = (!(containsSub sepStr c.name) && !(endsWithPipe c.name)) := by
  cases h1 : containsSub sepStr c.name
  · cases h2 : endsWithPipe c.name
    · unfold survives
      rw [from_line_to_line_exact c h h1 h2]
      simp
    · unfold survives
      rw [from_line_to_line_none c h (Or.inr h2)]
      rfl
  · unfold survives
    rw [from_line_to_line_none c h (Or.inl h1)]
    rfl

/-! ### Facts about reading the store -/

theorem from_line_WF (l : Str) (c : Contact) (h : from_line l = .ok (some c)) :
    WFContact c := by
  by_cases hc : containsSub sepStr l = true
  · cases hsp : splitFirst sepStr (pyStrip l) with
    | none =>
      unfold from_line at h
      rw [hc, if_pos rfl, hsp] at h
      cases h
    | some q =>
      obtain ⟨n, p⟩ := q
      rw [from_line_step l n p hc hsp] at h
      cases hcon : construct n p with
      | ok c' =>
        rw [hcon] at h
        injection h with h1
        injection h1 with h2
        subst h2
        exact construct_WF n p c' hcon
      | error e =>
        rw [hcon] at h
        injection h with h1
        cases h1
  · unfold from_line at h
    rw [if_neg hc] at h
    injection h with h1
    cases h1

theorem readContacts_nil : readContacts [] = .ok [] := rfl

theorem readContacts_cons (l : Str) (ls : List Str) :
    readContacts (l :: ls)
      = match from_line l with
        | .error e => .error e
        | .ok none => readContacts ls
        | .ok (some c) =>
          match readContacts ls with
          | .error e => .error e
          | .ok cs => .ok (c :: cs) := rfl

theorem readContacts_WF : ∀ (ls : List Str) (cs : List Contact),
    readContacts ls = .ok cs → ∀ c ∈ cs, WFContact c := by
  intro ls
  induction ls with
  | nil =>
    intro cs h c hc
    rw [readContacts_nil] at h
    injection h with h1
    subst h1
    cases hc
  | cons l ls ih =>
    intro cs h c hc
    rw [readContacts_cons] at h
    cases hfl : from_line l with
    | error e => rw [hfl] at h; cases h
    | ok o =>
      rw [hfl] at h
      cases o with
      | none => exact ih cs h c hc
      | some c' =>
        cases hrest : readContacts ls with
        | error e => rw [hrest] at h; cases h
        | ok cs' =>
          rw [hrest] at h
          injection h with h1
          subst h1
          rcases List.mem_cons.mp hc with h2 | h2
          · subst h2
            exact from_line_WF l c hfl
          · exact ih cs' hrest c h2

theorem readContacts_append (xs ys : List Str) (as bs : List Contact)
    (hx : readContacts xs = .ok as) (hy : readContacts ys = .ok bs) :
    readContacts (xs ++ ys) = .ok (as ++ bs) := by
  induction xs generalizing as with
  | nil =>
    rw [readContacts_nil] at hx
    injection hx with h1
    subst h1
    rw [List.nil_append, List.nil_append]
    exact hy
  | cons l ls ih =>
    rw [readContacts_cons] at hx
    rw [List.cons_append, readContacts_cons]
    cases hfl : from_line l with
    | error e => rw [hfl] at hx; cases hx
    | ok o =>
      rw [hfl] at hx
      cases o with
      | none => exact ih as hx
      | some c =>
        cases hrest : readContacts ls with
        | error e => rw [hrest] at hx; cases hx
        | ok cs' =>
          rw [hrest] at hx
          injection hx with h1
          subst h1
          rw [ih cs' hrest]
          rfl

theorem readContacts_map_to_line (l : List Contact) (h : ∀ c ∈ l, WFContact c) :
    readContacts (l.map to_line) = .ok (l.filter survives) := by
  induction l with
  | nil => rfl
  | cons c cs ih =>
    have hc := h c (List.mem_cons_self c cs)
    have hrest := ih (fun x hx => h x (List.mem_cons_of_mem c hx))
    rw [List.map_cons, readContacts_cons]
    rcases from_line_to_line_cases c hc with hfl | hfl
    · rw [hfl, hrest]
      have hs : survives c = true := by
        unfold survives
        rw [hfl]
        simp
      rw [List.filter_cons, if_pos hs]
    · rw [hfl, hrest]
      have hs : survives c = false := by
        unfold survives
        rw [hfl]
      rw [List.filter_cons, if_neg (by simp [hs])]

theorem get_all_WF (file : Option (List Str)) (cs : List Contact)
    (h : get_all_contacts file = .ok cs) : ∀ c ∈ cs, WFContact c := by
  cases file with
  | none =>
    unfold get_all_contacts at h
    injection h with h1
    subst h1
    intro c hc
    cases hc
  | some lines => exact readContacts_WF lines cs h

/-! ### Facts about the mutating operations -/

theorem add_contact_ok_read (file : Option (List Str)) (c : Contact)
    (cs : List Contact) (h : get_all_contacts file = .ok cs) :
    add_contact file c
      = if cs.any (fun e => lowerStr e.name == lowerStr c.name)
        then .error .duplicate
        else .ok (some (file.getD [] ++ [to_line c])) := by
  unfold add_contact
  rw [h]

theorem delete_contact_ok_read (file : Option (List Str)) (name : Str)
    (cs : List Contact) (h : get_all_contacts file = .ok cs) :
    delete_contact file name
      = if (cs.filter (fun c => !(lowerStr c.name == lowerStr name))).length = cs.length
        then .ok (false, file)
        else .ok (true,
          some ((cs.filter (fun c => !(lowerStr c.name == lowerStr name))).map to_line)) := by
  unfold delete_contact
  rw [h]

theorem runOp_add (file : Option (List Str)) (c : Contact) :
    runOp file (Op.addOp c)
      = match add_contact file c with
        | .ok f => f
        | .error _ => file := rfl

theorem runOp_del (file : Option (List Str)) (n : Str) :
    runOp file (Op.delOp n)
      = match delete_contact file n with
        | .ok r => r.2
        | .error _ => file := rfl

theorem goodInv_add (file : Option (List Str)) (c : Contact)
    (hwf : WFContact c) (h : GoodInv file) : GoodInv (runOp file (Op.addOp c)) := by
  obtain ⟨cs, hread, hdist, hWFs⟩ := h
  rw [runOp_add, add_contact_ok_read file c cs hread]
  by_cases hdup : cs.any (fun e => lowerStr e.name == lowerStr c.name) = true
  · rw [if_pos hdup]
    exact ⟨cs, hread, hdist, hWFs⟩
  · rw [if_neg hdup]
    show GoodInv (some (file.getD [] ++ [to_line c]))
    have hreadD : readContacts (file.getD []) = .ok cs := by
      cases file with
      | none =>
        unfold get_all_contacts at hread
        injection hread with h1
        subst h1
        rfl
      | some lines => exact hread
    have hdup' : cs.any (fun e => lowerStr e.name == lowerStr c.name) = false :=
      Bool.eq_false_iff.mpr hdup
    rcases from_line_to_line_cases c hwf with hfl | hfl
    · have h2 : readContacts [to_line c] = .ok [c] := by
        rw [readContacts_cons, hfl, readContacts_nil]
      have h3 := readContacts_append _ _ _ _ hreadD h2
      refine ⟨cs ++ [c], h3, ?_, ?_⟩
      · unfold distinctNames
        rw [List.pairwise_append]
        refine ⟨hdist, List.pairwise_singleton _ _, ?_⟩
        intro a ha b hb
        have hb2 : b = c := by simpa using hb
        subst hb2
        have := List.any_eq_false.mp hdup' a ha
        simpa using this
      · intro x hx
        rcases List.mem_append.mp hx with h4 | h4
        · exact hWFs x h4
        · have : x = c := by simpa using h4
          subst this
          exact hwf
    · have h2 : readContacts [to_line c] = .ok [] := by
        rw [readContacts_cons, hfl, readContacts_nil]
      have h3 := readContacts_append _ _ _ _ hreadD h2
      rw [List.append_nil] at h3
      exact ⟨cs, h3, hdist, hWFs⟩

theorem goodInv_del (file : Option (List Str)) (n : Str)
    (h : GoodInv file) : GoodInv (runOp file (Op.delOp n)) := by
  obtain ⟨cs, hread, hdist, hWFs⟩ := h
  rw [runOp_del, delete_contact_ok_read file n cs hread]
  by_cases hlen : (cs.filter (fun c => !(lowerStr c.name == lowerStr n))).length = cs.length
  · rw [if_pos hlen]
    exact ⟨cs, hread, hdist, hWFs⟩
  · rw [if_neg hlen]
    show GoodInv (some ((cs.filter (fun c => !(lowerStr c.name == lowerStr n))).map to_line))
    have hWFupd : ∀ c ∈ cs.filter (fun c => !(lowerStr c.name == lowerStr n)), WFContact c :=
      fun c hc => hWFs c (List.mem_of_mem_filter hc)
    have h2 := readContacts_map_to_line _ hWFupd
    have hsub : List.Sublist
        ((cs.filter (fun c => !(lowerStr c.name == lowerStr n))).filter survives) cs :=
      (List.filter_sublist _).trans (List.filter_sublist _)
    exact ⟨_, h2, List.Pairwise.sublist hsub hdist, fun x hx => hWFs x (hsub.subset hx)⟩

theorem goodInv_foldl : ∀ (ops : List Op) (file : Option (List Str)),
    GoodInv file → (∀ op ∈ ops, opWFB op = true) →
    GoodInv (List.foldl runOp file ops) := by
  intro ops
  induction ops with
  | nil => intro file h hwf; exact h
  | cons op ops ih =>
    intro file h hwf
    rw [List.foldl_cons]
    refine ih (runOp file op) ?_ (fun o ho => hwf o (List.mem_cons_of_mem op ho))
    cases op with
    | addOp c =>
      have hc : WFContact c := of_decide_eq_true (hwf (Op.addOp c) (List.mem_cons_self _ _))
      exact goodInv_add file c hc h
    | delOp n => exact goodInv_del file n h

theorem pyStrip_infix (s : Str) : ∃ u w, u ++ (pyStrip s ++ w) = s := by
  obtain ⟨u, hu⟩ := exists_append_dropWhile isSpaceChar (rstrip s)
  obtain ⟨t, ht⟩ := exists_append_dropWhile isSpaceChar s.reverse
  have hu' : u ++ pyStrip s = rstrip s := hu
  have h2 : rstrip s ++ t.reverse = s := by
    have h3 : (t ++ s.reverse.dropWhile isSpaceChar).reverse = s.reverse.reverse := by
      rw [ht]
    rw [List.reverse_append, List.reverse_reverse] at h3
    exact h3
  exact ⟨u, t.reverse, by rw [← List.append_assoc, hu', h2]⟩

theorem containsSub_infix_false (s m u w : Str) (hdecomp : u ++ (m ++ w) = s)
    (h : containsSub sepStr s = false) : containsSub sepStr m = false := by
  cases hb : containsSub sepStr m
  · rfl
  · exfalso
    obtain ⟨⟨a, b⟩, hab⟩ := Option.isSome_iff_exists.mp hb
    have hm := splitFirst_eq_append sepStr m a b hab
    have hcon : containsSub sepStr s = true := by
      unfold containsSub
      have hs : s = (u ++ a) ++ (sepStr ++ (b ++ w)) := by
        rw [← hdecomp, hm]
        simp [List.append_assoc]
      rw [hs]
      exact splitFirst_append_isSome (u ++ a) (b ++ w)
    rw [hcon] at h
    cases h

theorem containsSub_pyStrip_false (s : Str) (h : containsSub sepStr s = false) :
    containsSub sepStr (pyStrip s) = false := by
  obtain ⟨u, w, hd⟩ := pyStrip_infix s
  exact containsSub_infix_false s (pyStrip s) u w hd h

/-! ### The claims -/

/-- C1, counterexample: the claim says construction rejects any trimmed
phone with a character outside the strict set 0-9 and hyphen, but the code
validates against the looser set of `allowedPhoneChars`: the phone "+1"
contains a character outside the strict set yet construction succeeds. -/
theorem c1_strict_set_cex :
    construct "A".toList "+1".toList = .ok ⟨"A".toList, "+1".toList⟩ ∧
      '+' ∈ "+1".toList ∧ '+' ∉ "0123456789-".toList :=
  ⟨rfl, by decide, by decide⟩

/-- C1, amended: construction fails with `invalidPhone` exactly when the
trimmed phone contains a character outside the code's allowed set of
digits, hyphen, plus, space and parentheses (given a nonempty trimmed
name), and every constructed contact's phone is made of allowed characters
only. -/
theorem c1_phone_validation (name phone : Str) (h : pyStrip name ≠ []) :
    ((pyStrip phone).any (fun ch => !(allowedPhoneChars.contains ch)) = true →
      construct name phone = .error .invalidPhone) ∧
    (∀ c, construct name phone = .ok c →
      c.phone.all (fun ch => allowedPhoneChars.contains ch) = true) := by
  constructor
  · intro hbad
    unfold construct
    rw [if_neg h]
    have hp : pyStrip phone ≠ [] := by
      intro he
      rw [he] at hbad
      simp at hbad
    rw [if_neg hp, if_pos hbad]
  · intro c hc
    obtain ⟨-, hph, -, -, hall⟩ := construct_ok name phone c hc
    rw [hph]
    exact hall

theorem c1_phone_validation_witness :
    pyStrip "A".toList ≠ [] ∧
      (((pyStrip "@".toList).any (fun ch => !(allowedPhoneChars.contains ch)) = true →
        construct "A".toList "@".toList = .error .invalidPhone) ∧
      (∀ c, construct "A".toList "@".toList = .ok c →
        c.phone.all (fun ch => allowedPhoneChars.contains ch) = true)) :=
  ⟨by decide, c1_phone_validation "A".toList "@".toList (by decide)⟩

/-- C2, counterexample: the claim says every non-matching record survives a
successful delete.  The store line "A |\t | 1\n" parses to the record
(name "A |", phone "1"); deleting "bob" succeeds and keeps that record's
serialization, but the rewritten line "A | | 1\n" no longer parses, so the
non-matching record vanishes from List().  Also, on a store whose read
aborts (line " | 1\n"), delete raises instead of returning false. -/
theorem c2_delete_cex :
    get_all_contacts (some ["A |\t | 1\n".toList, "Bob | 2\n".toList])
        = .ok [⟨"A |".toList, "1".toList⟩, ⟨"Bob".toList, "2".toList⟩] ∧
      delete_contact (some ["A |\t | 1\n".toList, "Bob | 2\n".toList]) "bob".toList
        = .ok (true, some ["A | | 1\n".toList]) ∧
      get_all_contacts (some ["A | | 1\n".toList]) = .ok [] ∧
      lowerStr "A |".toList ≠ lowerStr "bob".toList ∧
      delete_contact (some [" | 1\n".toList]) "zed".toList = .error () :=
  ⟨rfl, rfl, rfl, by decide, rfl⟩

/-- C2, amended: provided reading the store succeeds, delete of a
non-matching name returns false and leaves the file untouched; delete with
a match returns true and rewrites the file with exactly the serialized
non-matching records in order, after which List() returns exactly those
survivors whose name neither contains the separator nor ends in " |"
(the others fail to re-parse and are lost), and the deleted name is absent
from that list. -/
theorem c2_delete_amended (file : Option (List Str)) (name : Str)
    (cs : List Contact) (hread : get_all_contacts file = .ok cs) :
    ((cs.filter (fun c => !(lowerStr c.name == lowerStr name))).length = cs.length →
      delete_contact file name = .ok (false, file)) ∧
    ((cs.filter (fun c => !(lowerStr c.name == lowerStr name))).length ≠ cs.length →
      delete_contact file name
          = .ok (true,
            some ((cs.filter (fun c => !(lowerStr c.name == lowerStr name))).map to_line)) ∧
        get_all_contacts
            (some ((cs.filter (fun c => !(lowerStr c.name == lowerStr name))).map to_line))
          = .ok ((cs.filter (fun c => !(lowerStr c.name == lowerStr name))).filter
              (fun c => !(containsSub sepStr c.name) && !(endsWithPipe c.name))) ∧
        ∀ c ∈ (cs.filter (fun c => !(lowerStr c.name == lowerStr name))).filter
            (fun c => !(containsSub sepStr c.name) && !(endsWithPipe c.name)),
          lowerStr c.name ≠ lowerStr name) := by
  constructor
  · intro hlen
    rw [delete_contact_ok_read file name cs hread, if_pos hlen]
  · intro hlen
    have hWFupd : ∀ c ∈ cs.filter (fun c => !(lowerStr c.name == lowerStr name)),
        WFContact c :=
      fun c hc => get_all_WF file cs hread c (List.mem_of_mem_filter hc)
    refine ⟨?_, ?_, ?_⟩
    · rw [delete_contact_ok_read file name cs hread, if_neg hlen]
    · show readContacts ((cs.filter (fun c => !(lowerStr c.name == lowerStr name))).map to_line)
          = _
      rw [readContacts_map_to_line _ hWFupd,
        List.filter_congr (fun x hx => survives_eq x (hWFupd x hx))]
    · intro c hc
      have hc2 := List.of_mem_filter (List.mem_of_mem_filter hc : c ∈ _)
      simpa using hc2

theorem c2_delete_amended_witness :
    delete_contact (some [aliceLine, bobLine]) "alice".toList = .ok (true, some [bobLine]) ∧
      get_all_contacts (some [bobLine]) = .ok [bobContact] ∧
      ∀ c ∈ [bobContact], lowerStr c.name ≠ lowerStr "alice".toList :=
  (c2_delete_amended (some [aliceLine, bobLine]) "alice".toList
    [aliceContact, bobContact] rfl).2 (by decide)

/-- C3, counterexample: on a store whose read aborts (line " | 1\n" raises
inside parsing), adding a fresh contact raises the read exception instead
of appending its serialized line as the claim requires. -/
theorem c3_add_abort_cex :
    get_all_contacts (some [" | 1\n".toList]) = .error () ∧
      add_contact (some [" | 1\n".toList]) ⟨"Bob".toList, "1".toList⟩
        = .error .readAbort :=
  ⟨rfl, rfl⟩

/-- C3, amended: provided reading the store succeeds, adding a contact
whose lowercased name matches an existing record raises the duplicate
error and leaves the file unchanged, and adding a contact with no match
appends exactly its serialized line to the existing lines. -/
theorem c3_add_amended (file : Option (List Str)) (c : Contact)
    (cs : List Contact) (hread : get_all_contacts file = .ok cs) :
    ((∃ e ∈ cs, lowerStr e.name = lowerStr c.name) →
      add_contact file c = .error .duplicate ∧ runOp file (Op.addOp c) = file) ∧
    ((∀ e ∈ cs, lowerStr e.name ≠ lowerStr c.name) →
      add_contact file c = .ok (some (file.getD [] ++ [to_line c]))) := by
  constructor
  · rintro ⟨e, he, heq⟩
    have hdup : cs.any (fun x => lowerStr x.name == lowerStr c.name) = true :=
      List.any_eq_true.mpr ⟨e, he, by simp [heq]⟩
    have h1 : add_contact file c = .error .duplicate := by
      rw [add_contact_ok_read file c cs hread, if_pos hdup]
    refine ⟨h1, ?_⟩
    rw [runOp_add, h1]
  · intro hno
    have hdup : cs.any (fun x => lowerStr x.name == lowerStr c.name) = false := by
      rw [List.any_eq_false]
      intro x hx
      simp [hno x hx]
    rw [add_contact_ok_read file c cs hread, if_neg (by simp [hdup])]

theorem c3_add_amended_witness :
    add_contact (some [aliceLine]) ⟨"alice".toList, "2".toList⟩ = .error .duplicate ∧
      runOp (some [aliceLine]) (Op.addOp ⟨"alice".toList, "2".toList⟩) = some [aliceLine] :=
  (c3_add_amended (some [aliceLine]) ⟨"alice".toList, "2".toList⟩
    [aliceContact] rfl).1 ⟨aliceContact, by decide, by decide⟩

/-- C4, counterexample: the claim's hypotheses hold for name "A |" and
phone "1" (construction succeeds and neither input contains " | "), yet
parsing the serialization returns none rather than the contact. -/
theorem c4_roundtrip_cex :
    construct "A |".toList "1".toList = .ok ⟨"A |".toList, "1".toList⟩ ∧
      containsSub sepStr "A |".toList = false ∧
      containsSub sepStr "1".toList = false ∧
      from_line (to_line ⟨"A |".toList, "1".toList⟩) = .ok none :=
  ⟨rfl, by decide, by decide, rfl⟩

/-- C4, amended: when construction succeeds, neither input contains the
separator " | ", and the trimmed name does not end in " |", parsing the
serialization returns the contact with the trimmed name and phone. -/
theorem c4_roundtrip_amended (name phone : Str) (c : Contact)
    (h : construct name phone = .ok c)
    (h1 : containsSub sepStr name = false)
    (h2 : containsSub sepStr phone = false)
    (h3 : endsWithPipe (pyStrip name) = false) :
    from_line (to_line c) = .ok (some ⟨pyStrip name, pyStrip phone⟩) := by
  obtain ⟨hn, hp, -, -, -⟩ := construct_ok name phone c h
  have hwf := construct_WF name phone c h
  have hcs : containsSub sepStr c.name = false := by
    rw [hn]
    exact containsSub_pyStrip_false name h1
  have hep : endsWithPipe c.name = false := by
    rw [hn]
    exact h3
  rw [from_line_to_line_exact c hwf hcs hep, ← hn, ← hp]

theorem c4_roundtrip_amended_witness :
    construct "Alice".toList "555-1234".toList
        = .ok ⟨"Alice".toList, "555-1234".toList⟩ ∧
      from_line (to_line ⟨"Alice".toList, "555-1234".toList⟩)
        = .ok (some ⟨pyStrip "Alice".toList, pyStrip "555-1234".toList⟩) :=
  ⟨rfl, c4_roundtrip_amended "Alice".toList "555-1234".toList
    ⟨"Alice".toList, "555-1234".toList⟩ rfl (by decide) (by decide) (by decide)⟩

/-- C5: the defensive skip policy is broken by the source: the raw line
" | 1\n" contains the separator, but its stripped form does not, so the
two-variable unpacking of the one-element split raises an uncaught
ValueError and the whole read aborts even though a later line is a valid
record.  The remaining conjuncts record the parts of the claim the code
does satisfy: no separator gives none, and a construction failure inside
the try gives none. -/
theorem c5_parse_abort_bug :
    containsSub sepStr " | 1\n".toList = true ∧
      from_line " | 1\n".toList = .error () ∧
      readContacts [" | 1\n".toList, aliceLine] = .error () ∧
      from_line "blah\n".toList = .ok none ∧
      from_line "Bob | abc\n".toList = .ok none :=
  ⟨by decide, rfl, rfl, rfl, rfl⟩

/-- C6: listing an absent store returns the empty list rather than an
error, and the read path never modifies the filesystem state, so in
particular it does not create the file. -/
theorem c6_list_absent_store :
    get_all_contacts none = .ok [] ∧ listContacts_fs none = (.ok [], none) ∧
      ∀ file, (listContacts_fs file).2 = file := by
  refine ⟨rfl, rfl, fun file => ?_⟩
  cases file with
  | none => rfl
  | some lines => rfl

/-- C7, counterexample: initialization never creates the backing file: for
both a plain path and a path with a directory component, an absent file is
still absent after `initManager`. -/
theorem c7_init_no_file_cex :
    (initManager "contacts.txt".toList ⟨none, []⟩).file = none ∧
      (initManager "data/contacts.txt".toList ⟨none, []⟩).file = none :=
  ⟨rfl, rfl⟩

/-- C7, amended: initialization never creates or modifies the backing
file; when the path has a directory component, that directory is created
(makedirs) at initialization time. -/
theorem c7_init_amended (path : Str) (fs : FS) (h : dirname path ≠ []) :
    (∀ q : Str, ∀ g : FS, (initManager q g).file = g.file) ∧
      (initManager path fs).dirs = dirname path :: fs.dirs := by
  constructor
  · intro q g
    unfold initManager
    by_cases hq : dirname q = []
    · rw [if_pos hq]
    · rw [if_neg hq]
  · unfold initManager
    rw [if_neg h]

theorem c7_init_amended_witness :
    dirname "data/contacts.txt".toList ≠ [] ∧
      ((∀ q : Str, ∀ g : FS, (initManager q g).file = g.file) ∧
        (initManager "data/contacts.txt".toList ⟨none, []⟩).dirs
          = dirname "data/contacts.txt".toList :: []) :=
  ⟨by decide, c7_init_amended "data/contacts.txt".toList ⟨none, []⟩ (by decide)⟩

/-- C8: starting from an absent or empty store, any sequence of add and
delete operations on Python-constructed contacts keeps the store readable
with pairwise distinct lowercased names. -/
theorem c8_add_delete_preserve_distinct (ops : List Op) (init : Option (List Str))
    (hinit : init = none ∨ init = some [])
    (hwf : ∀ op ∈ ops, opWFB op = true) :
    GoodInv (List.foldl runOp init ops) := by
  refine goodInv_foldl ops init ?_ hwf
  rcases hinit with h | h
  · subst h
    exact ⟨[], rfl, List.Pairwise.nil, fun c hc => absurd hc (List.not_mem_nil c)⟩
  · subst h
    exact ⟨[], rfl, List.Pairwise.nil, fun c hc => absurd hc (List.not_mem_nil c)⟩

theorem c8_add_delete_preserve_distinct_witness :
    ((some [] : Option (List Str)) = none ∨ (some [] : Option (List Str)) = some []) ∧
      GoodInv (List.foldl runOp (some [])
        [Op.addOp aliceContact, Op.addOp bobContact, Op.delOp "alice".toList]) :=
  ⟨Or.inr rfl, c8_add_delete_preserve_distinct
    [Op.addOp aliceContact, Op.addOp bobContact, Op.delOp "alice".toList]
    (some []) (Or.inr rfl) (by decide)⟩

/-- C9: validation does not guard the separator: construction accepts the
name "A | B" even though it contains " | ", and parsing the serialization
of that contact yields none instead of the contact, corrupting the round
trip. -/
theorem c9_separator_unguarded :
    construct "A | B".toList "1".toList = .ok ⟨"A | B".toList, "1".toList⟩ ∧
      containsSub sepStr "A | B".toList = true ∧
      from_line (to_line ⟨"A | B".toList, "1".toList⟩) = .ok none :=
  ⟨rfl, by decide, rfl⟩

/-- C10: a successful true-returning delete rewrites the file with exactly
the serialized surviving records: every line of the new file is the
serialization of some surviving non-matching record, and no blank line
(empty or lone newline) survives the rewrite. -/
theorem c10_delete_discards_malformed (lines : List Str) (name : Str)
    (fs' : Option (List Str)) (cs : List Contact)
    (hread : get_all_contacts (some lines) = .ok cs)
    (hbad : ∃ l ∈ lines, from_line l = .ok none)
    (hdel : delete_contact (some lines) name = .ok (true, fs')) :
    fs' = some ((cs.filter (fun c => !(lowerStr c.name == lowerStr name))).map to_line) ∧
      (∀ l ∈ (cs.filter (fun c => !(lowerStr c.name == lowerStr name))).map to_line,
        ∃ c, c ∈ cs ∧ lowerStr c.name ≠ lowerStr name ∧ l = to_line c) ∧
      (∀ l : Str, (l = [] ∨ l = ['\n']) →
        l ∉ (cs.filter (fun c => !(lowerStr c.name == lowerStr name))).map to_line) := by
  have hd := delete_contact_ok_read (some lines) name cs hread
  by_cases hlen : (cs.filter (fun c => !(lowerStr c.name == lowerStr name))).length
      = cs.length
  · rw [hd, if_pos hlen] at hdel
    injection hdel with h1
    have h2 := congrArg Prod.fst h1
    simp at h2
  · rw [hd, if_neg hlen] at hdel
    injection hdel with h1
    have hfs : fs'
        = some ((cs.filter (fun c => !(lowerStr c.name == lowerStr name))).map to_line) :=
      (congrArg Prod.snd h1).symm
    refine ⟨hfs, ?_, ?_⟩
    · intro l hl
      obtain ⟨c, hc, hlc⟩ := List.mem_map.mp hl
      refine ⟨c, List.mem_of_mem_filter hc, ?_, hlc.symm⟩
      have hc2 := List.of_mem_filter hc
      simpa using hc2
    · intro l hblank hl
      obtain ⟨c, hc, hlc⟩ := List.mem_map.mp hl
      have hwf : WFContact c := get_all_WF _ cs hread c (List.mem_of_mem_filter hc)
      obtain ⟨hn, -, hp, -, -⟩ := hwf
      cases hna : c.name with
      | nil => exact hn hna
      | cons a as =>
        have hto : to_line c = a :: (as ++ (sepStr ++ (c.phone ++ ['\n']))) := by
          rw [to_line, hna, List.cons_append]
        rcases hblank with hb | hb
        · have h3 : to_line c = [] := by rw [hlc, hb]
          rw [hto] at h3
          cases h3
        · have h3 : to_line c = ['\n'] := by rw [hlc, hb]
          rw [hto] at h3
          injection h3 with h4 h5
          simp [sepStr] at h5

theorem c10_delete_discards_malformed_witness :
    (some [] : Option (List Str)) = some [] ∧
      (∀ l ∈ ([] : List Str), ∃ c, c ∈ [bobContact] ∧
        lowerStr c.name ≠ lowerStr "bob".toList ∧ l = to_line c) ∧
      (∀ l : Str, (l = [] ∨ l = ['\n']) → l ∉ ([] : List Str)) :=
  c10_delete_discards_malformed [[], bobLine] "bob".toList (some []) [bobContact]
    rfl ⟨[], List.mem_cons_self _ _, rfl⟩ rfl

end ContactMgr
